import Mathlib

/-!
Shallow embedding of `src/tzfile.rs` (rust-chrono's tzfile parser) and
verification of its specification claims.

Modelling conventions:
* a byte stream is a `List Nat` (each entry one byte);
* `i64`/`i32` values are `Int`, produced by `toSigned` from big-endian
  byte groups, so ranges match the machine types on every real input;
* Rust `IoResult` is `Except RErr`; an out-of-bounds index or failed
  `assert!` (a Rust task failure) is modelled by the distinguished
  outcome `RErr.panicked`, and an end-of-input read by `RErr.eof`;
* Rust `String`s (zone names, the TZ-rule string, the abbreviation
  pool) are kept as their UTF-8 bytes (`List Nat`); `utf8Valid` is the
  exact acceptance predicate of `String::from_utf8` (RFC 3629: no
  continuation-byte starts, no overlongs, no surrogates, max U+10FFFF).
-/

namespace TzSpec

/-- Outcome of a fallible operation: an I/O end-of-file from the byte
source, a validation error with the source's literal description
string, or a Rust task failure (panic). -/
inductive RErr : Type
  | eof : RErr
  | invalidInput : String → RErr
  | panicked : RErr
deriving DecidableEq, Repr

/-- `Timezone` record from the source: signed offset seconds, DST flag,
and the abbreviation name kept as its UTF-8 bytes. -/
structure Timezone where
  local_minus_utc : Int
  dst : Bool
  name : List Nat
deriving DecidableEq, Repr

instance : Inhabited Timezone := ⟨⟨0, false, []⟩⟩

/-- The parsed file structure: transition table, leap-second table and
optional future-rule string (as UTF-8 bytes). -/
structure TzFile where
  transitions : List (Int × Timezone)
  leap_transitions : List (Int × Int)
  future_rules : Option (List Nat)
deriving DecidableEq, Repr

/-- `i64::MIN`. -/
def intMin : Int := -(2 ^ 63)

/-- `Reader::read_u8`: one byte or end-of-file. -/
def read_u8 (s : List Nat) : Except RErr (Nat × List Nat) :=
  match s with
  | [] => .error .eof
  | b :: rest => .ok (b, rest)

/-- `Reader::read_exact(n)`: exactly `n` bytes or end-of-file. -/
def read_exact (n : Nat) (s : List Nat) : Except RErr (List Nat × List Nat) :=
  if n ≤ s.length then .ok (s.take n, s.drop n) else .error .eof

/-- Big-endian value of a byte group. -/
def beNat (bs : List Nat) : Nat :=
  bs.foldl (fun a b => a * 256 + b) 0

/-- Two's-complement reading of a `w`-bit big-endian unsigned value. -/
def toSigned (w : Nat) (u : Nat) : Int :=
  if u < 2 ^ (w - 1) then (u : Int) else (u : Int) - 2 ^ w

/-- `Reader::read_be_u32`. -/
def read_be_u32 (s : List Nat) : Except RErr (Nat × List Nat) :=
  match read_exact 4 s with
  | .error e => .error e
  | .ok (bs, s) => .ok (beNat bs, s)

/-- `Reader::read_be_i32`. -/
def read_be_i32 (s : List Nat) : Except RErr (Int × List Nat) :=
  match read_exact 4 s with
  | .error e => .error e
  | .ok (bs, s) => .ok (toSigned 32 (beNat bs), s)

/-- `Reader::read_be_int_n(nbytes)`: big-endian signed integer of the
given byte width, sign-extended. -/
def read_be_int_n (nbytes : Nat) (s : List Nat) : Except RErr (Int × List Nat) :=
  match read_exact nbytes s with
  | .error e => .error e
  | .ok (bs, s) => .ok (toSigned (8 * nbytes) (beNat bs), s)

/-- Is a byte a UTF-8 continuation byte `0x80..=0xBF`? -/
def isCont (b : Nat) : Bool := 0x80 ≤ b && b ≤ 0xBF

/-- Exact acceptance predicate of Rust `String::from_utf8`: well-formed
UTF-8 with no overlong forms, no surrogate code points, nothing above
U+10FFFF. -/
def utf8Valid : List Nat → Bool
  | [] => true
  | b :: rest =>
    if b < 0x80 then utf8Valid rest
    else if b < 0xC2 then false
    else if b < 0xE0 then
      match rest with
      | c1 :: rest => isCont c1 && utf8Valid rest
      | _ => false
    else if b = 0xE0 then
      match rest with
      | c1 :: c2 :: rest => (0xA0 ≤ c1 && c1 ≤ 0xBF) && isCont c2 && utf8Valid rest
      | _ => false
    else if b < 0xED then
      match rest with
      | c1 :: c2 :: rest => isCont c1 && isCont c2 && utf8Valid rest
      | _ => false
    else if b = 0xED then
      match rest with
      | c1 :: c2 :: rest => (0x80 ≤ c1 && c1 ≤ 0x9F) && isCont c2 && utf8Valid rest
      | _ => false
    else if b < 0xF0 then
      match rest with
      | c1 :: c2 :: rest => isCont c1 && isCont c2 && utf8Valid rest
      | _ => false
    else if b = 0xF0 then
      match rest with
      | c1 :: c2 :: c3 :: rest =>
        (0x90 ≤ c1 && c1 ≤ 0xBF) && isCont c2 && isCont c3 && utf8Valid rest
      | _ => false
    else if b < 0xF4 then
      match rest with
      | c1 :: c2 :: c3 :: rest => isCont c1 && isCont c2 && isCont c3 && utf8Valid rest
      | _ => false
    else if b = 0xF4 then
      match rest with
      | c1 :: c2 :: c3 :: rest =>
        (0x80 ≤ c1 && c1 ≤ 0x8F) && isCont c2 && isCont c3 && utf8Valid rest
      | _ => false
    else false

/-- The loop body of `bsearch_no_less`, with the loop variable `limit`
paced by a structural fuel argument (`fuel` starts at the initial
`limit`, which bounds the iteration count since `limit` strictly
decreases each round). -/
def bsearchAux {T : Type} (d : T) (f : T → Ordering) (v : List T) :
    Nat → Nat → Nat → Nat
  | 0, base, _ => base
  | fuel + 1, base, limit =>
    if limit = 0 then base
    else
      let ix := base + limit / 2
      if f (v.getD ix d) = Ordering.lt then
        bsearchAux d f v fuel (ix + 1) ((limit - 1) / 2)
      else
        bsearchAux d f v fuel base (limit / 2)

/-- `bsearch_no_less`: first index whose element compares not-`Less`
than the target, per the source's binary search. -/
def bsearch_no_less {T : Type} [Inhabited T] (v : List T) (f : T → Ordering) : Nat :=
  bsearchAux default f v v.length 0 v.length

/-- `invalid_input(desc)` helper from the source. -/
def invalid_input {T : Type} (desc : String) : Except RErr T :=
  .error (.invalidInput desc)

/-- `try!`: propagate an error, continue on success. -/
def tryE {α β : Type} (m : Except RErr α) (k : α → Except RErr β) : Except RErr β :=
  match m with
  | .error e => .error e
  | .ok a => k a

/-- Loop reading `timecnt` transition timestamps
(`read_be_int_n(timewidth)` each). -/
def readInts (w : Nat) : Nat → List Nat → Except RErr (List Int × List Nat)
  | 0, s => .ok ([], s)
  | n + 1, s =>
    tryE (read_be_int_n w s) fun (x, s) =>
    tryE (readInts w n s) fun (xs, s) =>
    .ok (x :: xs, s)

/-- Loop reading `timecnt` one-byte transition type indices. -/
def readIndices : Nat → List Nat → Except RErr (List Nat × List Nat)
  | 0, s => .ok ([], s)
  | n + 1, s =>
    tryE (read_u8 s) fun (x, s) =>
    tryE (readIndices n s) fun (xs, s) =>
    .ok (x :: xs, s)

/-- Loop reading `typecnt` raw type records
`(gmtoff : i32, isdst : u8, abbrind : u8)`. -/
def readTtinfos0 : Nat → List Nat → Except RErr (List (Int × Nat × Nat) × List Nat)
  | 0, s => .ok ([], s)
  | n + 1, s =>
    tryE (read_be_i32 s) fun (gmtoff, s) =>
    tryE (read_u8 s) fun (isdst, s) =>
    tryE (read_u8 s) fun (abbrind, s) =>
    tryE (readTtinfos0 n s) fun (xs, s) =>
    .ok ((gmtoff, isdst, abbrind) :: xs, s)

/-- `last().map_or(false, |&(since, _)| since >= x)` from the two
ordering checks. -/
def lastInstantGe {α : Type} (acc : List (Int × α)) (x : Int) : Bool :=
  match acc.getLast? with
  | some q => decide (q.1 ≥ x)
  | none => false

/-- Loop reading `leapcnt` leap entries, pushing each after the
ordering check against the previously pushed entry. -/
def readLeaps (w : Nat) : Nat → List (Int × Int) → List Nat →
    Except RErr (List (Int × Int) × List Nat)
  | 0, acc, s => .ok (acc, s)
  | n + 1, acc, s =>
    tryE (read_be_int_n w s) fun (leapsince, s) =>
    tryE (read_be_i32 s) fun (leaptotal, s) =>
    if lastInstantGe acc leapsince then invalid_input "unsorted tzfile entires"
    else readLeaps w n (acc ++ [(leapsince, leaptotal)]) s

/-- The `loop { match read_u8 ... }` accumulating rule bytes until a
newline. -/
def readRuleBytes : List Nat → Except RErr (List Nat × List Nat)
  | [] => .error .eof
  | b :: rest =>
    if b = 10 then .ok ([], rest)
    else
      tryE (readRuleBytes rest) fun (acc, s) =>
      .ok (b :: acc, s)

/-- The future-rule (TZ string) section: only for `version >= b'2'`
(50); expects a newline, accumulates bytes to the next newline, empty
accumulation means no rules, otherwise the bytes must be valid UTF-8. -/
def readTzRules (version : Nat) (s : List Nat) :
    Except RErr (Option (List Nat) × List Nat) :=
  if version ≥ 50 then
    tryE (read_u8 s) fun (c, s) =>
    if c ≠ 10 then invalid_input "missing tzfile TZ string"
    else
      tryE (readRuleBytes s) fun (rules, s) =>
      if rules = [] then .ok (none, s)
      else if utf8Valid rules then .ok (some rules, s)
      else invalid_input "invalid tzfile TZ string"
  else .ok (none, s)

/-- `charpool.len()` check, `slice_from(abbrind)` (which aborts unless
the offset is a character boundary), `find('\0')` and `slice_to`:
resolves an abbreviation index to the name bytes. -/
def resolveAbbrev (pool : List Nat) (abbrind : Nat) : Except RErr (List Nat) :=
  if abbrind < pool.length then
    if isCont (pool.getD abbrind 0) then .error .panicked
    else
      match (pool.drop abbrind).findIdx? (fun b => b == 0) with
      | some idx => .ok ((pool.drop abbrind).take idx)
      | none => invalid_input "invalid tzfile abbreviation index"
  else invalid_input "invalid tzfile abbreviation index"

/-- One iteration of the type-record resolution loop: DST flag check
then abbreviation resolution. -/
def resolveTtinfo (pool : List Nat) (rec0 : Int × Nat × Nat) : Except RErr Timezone :=
  tryE (match rec0.2.1 with
        | 0 => Except.ok false
        | 1 => Except.ok true
        | _ => invalid_input "invalid tzfile dst flag") fun isdst =>
  tryE (resolveAbbrev pool rec0.2.2) fun abbr =>
  .ok ⟨rec0.1, isdst, abbr⟩

/-- The `for (gmtoff, isdst, abbrind) in ttinfos0` resolution loop. -/
def resolveTtinfos (pool : List Nat) : List (Int × Nat × Nat) →
    Except RErr (List Timezone)
  | [] => .ok []
  | r :: rs =>
    tryE (resolveTtinfo pool r) fun z =>
    tryE (resolveTtinfos pool rs) fun zs =>
    .ok (z :: zs)

/-- The transition assembly loop over `ttpoints.zip(ttindices)`:
ordering check against the last pushed entry, then the (unchecked,
hence possibly panicking) `ttinfos[ttindex]` lookup. -/
def buildTransitions (ttinfos : List Timezone) :
    List (Int × Nat) → List (Int × Timezone) → Except RErr (List (Int × Timezone))
  | [], acc => .ok acc
  | (ttpoint, ttindex) :: rest, acc =>
    if lastInstantGe acc ttpoint then invalid_input "unsorted tzfile entires"
    else if ttindex < ttinfos.length then
      buildTransitions ttinfos rest (acc ++ [(ttpoint, ttinfos.getD ttindex default)])
    else .error .panicked

/-- `transitions.push((i64::MIN, ttinfos[0].clone()))` followed by the
assembly loop (indexing an empty `ttinfos` would panic). -/
def buildTransitions0 (ttinfos : List Timezone) (pairs : List (Int × Nat)) :
    Except RErr (List (Int × Timezone)) :=
  match ttinfos with
  | [] => .error .panicked
  | z0 :: _ => buildTransitions ttinfos pairs [(intMin, z0)]

/-- The skipped legacy 32-bit data block of a v2/v3 file: six counts, a
computed skip, then the second magic/version/reserved block. -/
def skipLegacyBlock (version : Nat) (s : List Nat) : Except RErr (List Nat) :=
  tryE (read_be_u32 s) fun (ttisgmtcnt, s) =>
  tryE (read_be_u32 s) fun (ttisstdcnt, s) =>
  tryE (read_be_u32 s) fun (leapcnt, s) =>
  tryE (read_be_u32 s) fun (timecnt, s) =>
  tryE (read_be_u32 s) fun (typecnt, s) =>
  tryE (read_be_u32 s) fun (charcnt, s) =>
  tryE (read_exact (timecnt * 5 + typecnt * 6 + charcnt + leapcnt * 8 +
                    ttisgmtcnt + ttisstdcnt) s) fun (_, s) =>
  tryE (read_be_u32 s) fun (magic2, s) =>
  if magic2 ≠ 0x545a6966 then invalid_input "invalid tzfile magic"
  else
    tryE (read_u8 s) fun (version2, s) =>
    if version2 ≠ version then invalid_input "invalid tzfile version"
    else
      tryE (read_exact 15 s) fun (_, s) =>
      .ok s

/-- Magic, version (fixing the timestamp width), reserved bytes, and
for v2/v3 the legacy-block skip; returns `(timewidth, version)` and
the remaining stream. -/
def parseHeader (s : List Nat) : Except RErr ((Nat × Nat) × List Nat) :=
  tryE (read_be_u32 s) fun (magic, s) =>
  if magic ≠ 0x545a6966 then invalid_input "invalid tzfile magic"
  else
    tryE (read_u8 s) fun (version, s) =>
    tryE (match version with
          | 0 => Except.ok 4
          | 50 => Except.ok 8
          | 51 => Except.ok 8
          | _ => invalid_input "invalid tzfile version") fun timewidth =>
    tryE (read_exact 15 s) fun (_, s) =>
    tryE (if timewidth = 8 then skipLegacyBlock version s else .ok s) fun s =>
    .ok ((timewidth, version), s)

/-- Everything after the (active) header: the six counts and sanity
check, the data tables, indicator skips, TZ rules, type-record
resolution and transition assembly. -/
def readBody (timewidth version : Nat) (s : List Nat) :
    Except RErr (TzFile × List Nat) :=
  tryE (read_be_u32 s) fun (ttisgmtcnt, s) =>
  tryE (read_be_u32 s) fun (ttisstdcnt, s) =>
  tryE (read_be_u32 s) fun (leapcnt, s) =>
  tryE (read_be_u32 s) fun (timecnt, s) =>
  tryE (read_be_u32 s) fun (typecnt, s) =>
  tryE (read_be_u32 s) fun (charcnt, s) =>
  if typecnt = 0 ∨ ¬(ttisstdcnt = 0 ∨ ttisstdcnt = typecnt) ∨
     ¬(ttisgmtcnt = 0 ∨ ttisgmtcnt = typecnt) then
    invalid_input "invalid tzfile header"
  else
    tryE (readInts timewidth timecnt s) fun (ttpoints, s) =>
    tryE (readIndices timecnt s) fun (ttindices, s) =>
    tryE (readTtinfos0 typecnt s) fun (ttinfos0, s) =>
    tryE (read_exact charcnt s) fun (poolBytes, s) =>
    if ¬ utf8Valid poolBytes then invalid_input "invalid tzfile abbreviation pool"
    else
      tryE (readLeaps timewidth leapcnt [] s) fun (leaps, s) =>
      tryE (read_exact ttisstdcnt s) fun (_, s) =>
      tryE (read_exact ttisgmtcnt s) fun (_, s) =>
      tryE (readTzRules version s) fun (tzrules, s) =>
      tryE (resolveTtinfos poolBytes ttinfos0) fun ttinfos =>
      tryE (buildTransitions0 ttinfos (ttpoints.zip ttindices)) fun transitions =>
      .ok (⟨transitions, leaps, tzrules⟩, s)

/-- `TzFile::read`. -/
def TzFile.read (s : List Nat) : Except RErr (TzFile × List Nat) :=
  tryE (parseHeader s) fun ((timewidth, version), s) =>
  readBody timewidth version s

/-- `TzFile::timezone_at`: the failed `assert!(next > 0)` is the `none`
outcome. -/
def TzFile.timezone_at (tf : TzFile) (t : Int) : Option Timezone :=
  let next := bsearch_no_less tf.transitions (fun p => compare p.1 t)
  if next > 0 then some (tf.transitions.getD (next - 1) default).2 else none

/-- `TzFile::total_leap_seconds_at`. -/
def TzFile.total_leap_seconds_at (tf : TzFile) (t : Int) : Int :=
  let next := bsearch_no_less tf.leap_transitions (fun p => compare p.1 t)
  if next > 0 then (tf.leap_transitions.getD (next - 1) default).2 else 0

/-! ### Concrete input files used as witnesses and counterexamples -/

/-- Big-endian 4-byte encoding of a (small) natural number. -/
def be32 (n : Nat) : List Nat :=
  [n / 2 ^ 24 % 256, n / 2 ^ 16 % 256, n / 2 ^ 8 % 256, n % 256]

/-- The zone record `{gmtoff 3600, dst false, name "CET"}`. -/
def cet : Timezone := ⟨3600, false, [67, 69, 84]⟩

/-- The round-trip file of the spec: version `0x00`, zero
leap/indicator counts, one transition at instant 0 mapped to type 0 =
`{3600, false, "CET"}`. -/
def demoBytes : List Nat :=
  [84, 90, 105, 102] ++ [0] ++ List.replicate 15 0 ++
  be32 0 ++ be32 0 ++ be32 0 ++ be32 1 ++ be32 1 ++ be32 4 ++
  be32 0 ++ [0] ++
  be32 3600 ++ [0, 0] ++
  [67, 69, 84, 0]

/-- Expected parse of `demoBytes`. -/
def demoTz : TzFile := ⟨[(intMin, cet), (0, cet)], [], none⟩

/-- Zone `{0, false, "A"}`. -/
def zoneA : Timezone := ⟨0, false, [65]⟩

/-- Zone `{3600, false, "B"}`. -/
def zoneB : Timezone := ⟨3600, false, [66]⟩

/-- A valid legacy file with two distinct zones and one transition at
instant 100 to zone `zoneB`. -/
def c2Bytes : List Nat :=
  [84, 90, 105, 102] ++ [0] ++ List.replicate 15 0 ++
  be32 0 ++ be32 0 ++ be32 0 ++ be32 1 ++ be32 2 ++ be32 4 ++
  be32 100 ++ [1] ++
  be32 0 ++ [0, 0] ++ be32 3600 ++ [0, 2] ++
  [65, 0, 66, 0]

/-- Expected parse of `c2Bytes`. -/
def c2Tz : TzFile := ⟨[(intMin, zoneA), (100, zoneB)], [], none⟩

/-- A file whose single transition carries type index 1 while only one
type record (index 0) exists: `ttinfos[1]` is out of bounds. -/
def c6Bytes : List Nat :=
  [84, 90, 105, 102] ++ [0] ++ List.replicate 15 0 ++
  be32 0 ++ be32 0 ++ be32 0 ++ be32 1 ++ be32 1 ++ be32 4 ++
  be32 0 ++ [1] ++
  be32 0 ++ [0, 0] ++
  [67, 69, 84, 0]

/-- A file whose abbreviation pool is the two-byte character U+00E9
followed by a null (`[0xC3, 0xA9, 0x00]`, valid UTF-8) and whose only
type record has abbreviation index 1 — inside the pool, with a null
terminator after it, but in the middle of the character. -/
def c7Bytes : List Nat :=
  [84, 90, 105, 102] ++ [0] ++ List.replicate 15 0 ++
  be32 0 ++ be32 0 ++ be32 0 ++ be32 0 ++ be32 1 ++ be32 3 ++
  be32 0 ++ [0, 1] ++
  [195, 169, 0]

/-- A file whose only type record has DST flag byte 2 (invalid) and
whose leap-second table is unsorted (two entries both at instant 100). -/
def c8Bytes : List Nat :=
  [84, 90, 105, 102] ++ [0] ++ List.replicate 15 0 ++
  be32 0 ++ be32 0 ++ be32 2 ++ be32 0 ++ be32 1 ++ be32 4 ++
  be32 3600 ++ [2, 0] ++
  [67, 69, 84, 0] ++
  be32 100 ++ be32 1 ++ be32 100 ++ be32 2

/-- A file with two transitions at the same instant 5. -/
def c4Bytes : List Nat :=
  [84, 90, 105, 102] ++ [0] ++ List.replicate 15 0 ++
  be32 0 ++ be32 0 ++ be32 0 ++ be32 2 ++ be32 1 ++ be32 4 ++
  be32 5 ++ be32 5 ++ [0, 0] ++
  be32 0 ++ [0, 0] ++
  [67, 69, 84, 0]

/-! ### Binary-search correctness -/

/-- Invariant-based characterisation of the `bsearch_no_less` loop:
with enough fuel, a window inside the list, everything left of the
window `Less`, everything right of it not `Less`, and a
downward-closed `Less` region, the loop lands exactly on the boundary:
every index below the result is `Less` and every index at or above it
is not. -/
theorem bsearchAux_spec {T : Type} (d : T) (f : T → Ordering) (v : List T)
    (hmono : ∀ i j, i ≤ j → j < v.length →
      f (v.getD j d) = Ordering.lt → f (v.getD i d) = Ordering.lt) :
    ∀ (fuel base limit : Nat), limit ≤ fuel → base + limit ≤ v.length →
    (∀ i, i < base → f (v.getD i d) = Ordering.lt) →
    (∀ i, base + limit ≤ i → i < v.length → f (v.getD i d) ≠ Ordering.lt) →
    base ≤ bsearchAux d f v fuel base limit ∧
    bsearchAux d f v fuel base limit ≤ base + limit ∧
    (∀ i, i < bsearchAux d f v fuel base limit → f (v.getD i d) = Ordering.lt) ∧
    (∀ i, bsearchAux d f v fuel base limit ≤ i → i < v.length →
      f (v.getD i d) ≠ Ordering.lt) := by
  intro fuel
  induction fuel with
  | zero =>
    intro base limit hfuel hlen hlow hhigh
    have hl0 : limit = 0 := Nat.le_zero.mp hfuel
    subst hl0
    simp only [bsearchAux]
    exact ⟨Nat.le_refl _, Nat.le_add_right _ _, hlow, fun i hi => hhigh i hi⟩
  | succ fuel ih =>
    intro base limit hfuel hlen hlow hhigh
    by_cases hl0 : limit = 0
    · subst hl0
      simp only [bsearchAux, if_pos rfl]
      exact ⟨Nat.le_refl _, Nat.le_add_right _ _, hlow, fun i hi => hhigh i hi⟩
    · have hl1 : 1 ≤ limit := Nat.one_le_iff_ne_zero.mpr hl0
      have hix : base + limit / 2 < v.length := by omega
      simp only [bsearchAux, if_neg hl0]
      by_cases hcmp : f (v.getD (base + limit / 2) d) = Ordering.lt
      · simp only [if_pos hcmp]
        have hlow' : ∀ i, i < base + limit / 2 + 1 → f (v.getD i d) = Ordering.lt := by
          intro i hi
          rcases Nat.lt_or_ge i base with hib | hib
          · exact hlow i hib
          · exact hmono i (base + limit / 2) (by omega) hix hcmp
        have hhigh' : ∀ i, base + limit / 2 + 1 + (limit - 1) / 2 ≤ i → i < v.length →
            f (v.getD i d) ≠ Ordering.lt := by
          intro i hi hilen
          exact hhigh i (by omega) hilen
        obtain ⟨h1, h2, h3, h4⟩ :=
          ih (base + limit / 2 + 1) ((limit - 1) / 2) (by omega) (by omega) hlow' hhigh'
        exact ⟨by omega, by omega, h3, h4⟩
      · simp only [if_neg hcmp]
        have hhigh' : ∀ i, base + limit / 2 ≤ i → i < v.length →
            f (v.getD i d) ≠ Ordering.lt := by
          intro i hi hilen
          rcases Nat.eq_or_lt_of_le hi with hieq | hilt
          · rw [← hieq]; exact hcmp
          · intro hfi
            exact hcmp (hmono (base + limit / 2) i (by omega) hilen hfi)
        obtain ⟨h1, h2, h3, h4⟩ := ih base (limit / 2) (by omega) (by omega) hlow hhigh'
        exact ⟨h1, by omega, h3, h4⟩

/-- The source-level entry point inherits the boundary
characterisation: the result is at most the length, every earlier
element compares `Less`, and no element from the result on does. -/
theorem bsearch_no_less_spec {T : Type} [Inhabited T] (v : List T) (f : T → Ordering)
    (hmono : ∀ i j, i ≤ j → j < v.length →
      f (v.getD j default) = Ordering.lt → f (v.getD i default) = Ordering.lt) :
    bsearch_no_less v f ≤ v.length ∧
    (∀ i, i < bsearch_no_less v f → f (v.getD i default) = Ordering.lt) ∧
    (∀ i, bsearch_no_less v f ≤ i → i < v.length →
      f (v.getD i default) ≠ Ordering.lt) := by
  have h := bsearchAux_spec default f v hmono v.length 0 v.length
    (Nat.le_refl _) (by omega) (fun i hi => absurd hi (Nat.not_lt_zero i))
    (fun i hi hilen => absurd hilen (by omega))
  exact ⟨by simpa [bsearch_no_less] using h.2.1,
         by simpa [bsearch_no_less] using h.2.2.1,
         by simpa [bsearch_no_less] using h.2.2.2⟩

/-- `findIdx` returns `r` as soon as the predicate is false below `r`
and true at `r` (or `r` is the length). -/
theorem findIdx_eq_char {T : Type} (d : T) (p : T → Bool) :
    ∀ (v : List T) (r : Nat), r ≤ v.length →
    (∀ i, i < r → p (v.getD i d) = false) →
    (r < v.length → p (v.getD r d) = true) →
    v.findIdx p = r := by
  intro v
  induction v with
  | nil =>
    intro r hr _ _
    have h0 : r = 0 := Nat.le_zero.mp hr
    subst h0
    simp
  | cons a tl ih =>
    intro r hr hbelow hat
    cases r with
    | zero =>
      have hpa : p a = true := by simpa using hat (by simp)
      simp [List.findIdx_cons, hpa]
    | succ r' =>
      have hpa : p a = false := by simpa using hbelow 0 (Nat.succ_pos r')
      simp only [List.findIdx_cons, hpa, cond_false]
      have := ih r' (by simpa using hr)
        (fun i hi => by simpa using hbelow (i + 1) (by omega))
        (fun hlt => by simpa using hat (by simpa using hlt))
      omega

/-- Claim helper: the downward-closed-`Less` hypothesis, in `Pairwise`
form, transfers to the index form used by `bsearchAux_spec`. -/
theorem pairwise_to_mono {T : Type} (d : T) (f : T → Ordering) (v : List T)
    (h : v.Pairwise (fun a b => f b = Ordering.lt → f a = Ordering.lt)) :
    ∀ i j, i ≤ j → j < v.length →
      f (v.getD j d) = Ordering.lt → f (v.getD i d) = Ordering.lt := by
  intro i j hij hj hfj
  rcases Nat.eq_or_lt_of_le hij with heq | hlt
  · rw [heq]; exact hfj
  · have hi : i < v.length := by omega
    rw [List.getD_eq_getElem _ _ hi]
    rw [List.getD_eq_getElem _ _ hj] at hfj
    exact (List.pairwise_iff_getElem.mp h i j hi hj hlt) hfj

/-! ### Inversion of the parser on success -/

/-- `tryE` succeeds exactly when its first stage and its continuation
both do. -/
theorem tryE_ok_iff {α β : Type} (m : Except RErr α) (k : α → Except RErr β) (r : β) :
    tryE m k = .ok r ↔ ∃ a, m = .ok a ∧ k a = .ok r := by
  cases m with
  | error e => simp [tryE]
  | ok a => simp [tryE]

/-- Pushing an entry after the `last().map_or(false, …)` ordering check
preserves strict increase of the instants. -/
theorem chain'_push {α : Type} (acc : List (Int × α)) (x : Int) (y : α)
    (hacc : List.Chain' (fun a b => a.1 < b.1) acc)
    (hlast : lastInstantGe acc x = false) :
    List.Chain' (fun a b => a.1 < b.1) (acc ++ [(x, y)]) := by
  rw [List.chain'_append]
  refine ⟨hacc, List.chain'_singleton _, ?_⟩
  intro p hp q hq
  rw [Option.mem_def] at hp hq
  simp only [List.head?_cons, Option.some.injEq] at hq
  subst hq
  unfold lastInstantGe at hlast
  rw [hp] at hlast
  simp only [ge_iff_le, decide_eq_false_iff_not, not_le] at hlast
  exact hlast

/-- Every successful run of the leap-entry loop extends a
strictly-increasing accumulator to a strictly-increasing table. -/
theorem readLeaps_sorted (w : Nat) :
    ∀ (n : Nat) (acc : List (Int × Int)) (s : List Nat)
      (res : List (Int × Int)) (s' : List Nat),
    readLeaps w n acc s = .ok (res, s') →
    List.Chain' (fun a b => a.1 < b.1) acc →
    List.Chain' (fun a b => a.1 < b.1) res := by
  intro n
  induction n with
  | zero =>
    intro acc s res s' h hacc
    simp only [readLeaps, Except.ok.injEq, Prod.mk.injEq] at h
    rw [← h.1]
    exact hacc
  | succ n ih =>
    intro acc s res s' h hacc
    simp only [readLeaps] at h
    rw [tryE_ok_iff] at h
    obtain ⟨⟨leapsince, s1⟩, _, h⟩ := h
    rw [tryE_ok_iff] at h
    obtain ⟨⟨leaptotal, s2⟩, _, h⟩ := h
    split at h
    · exact absurd h (by simp [invalid_input])
    · rename_i hlast
      exact ih _ _ _ _ h (chain'_push acc leapsince leaptotal hacc
        (Bool.of_not_eq_true hlast))

/-- Every successful run of the transition assembly loop extends a
strictly-increasing accumulator by a suffix, keeping the instants
strictly increasing. -/
theorem buildTransitions_spec (ttinfos : List Timezone) :
    ∀ (pairs : List (Int × Nat)) (acc res : List (Int × Timezone)),
    buildTransitions ttinfos pairs acc = .ok res →
    List.Chain' (fun a b => a.1 < b.1) acc →
    List.Chain' (fun a b => a.1 < b.1) res ∧ ∃ suffix, res = acc ++ suffix := by
  intro pairs
  induction pairs with
  | nil =>
    intro acc res h hacc
    simp only [buildTransitions, Except.ok.injEq] at h
    rw [← h]
    exact ⟨hacc, [], by simp⟩
  | cons p rest ih =>
    intro acc res h hacc
    obtain ⟨ttpoint, ttindex⟩ := p
    simp only [buildTransitions] at h
    split at h
    · exact absurd h (by simp [invalid_input])
    · rename_i hlast
      split at h
      · have hpush := chain'_push acc ttpoint (ttinfos.getD ttindex default) hacc
          (Bool.of_not_eq_true hlast)
        obtain ⟨hchain, suffix, hsuf⟩ := ih _ _ h hpush
        exact ⟨hchain, (ttpoint, ttinfos.getD ttindex default) :: suffix,
          by rw [hsuf]; simp⟩
      · exact absurd h (by simp)

/-- A successful `buildTransitions0` produces a strictly increasing
table whose first entry is `(i64::MIN, ttinfos[0])`. -/
theorem buildTransitions0_spec (ttinfos : List Timezone) (pairs : List (Int × Nat))
    (res : List (Int × Timezone)) (h : buildTransitions0 ttinfos pairs = .ok res) :
    List.Chain' (fun a b => a.1 < b.1) res ∧
    ∃ z0 rest0 suffix, ttinfos = z0 :: rest0 ∧ res = (intMin, z0) :: suffix := by
  unfold buildTransitions0 at h
  cases hti : ttinfos with
  | nil => rw [hti] at h; exact absurd h (by simp)
  | cons z0 rest0 =>
    rw [hti] at h
    obtain ⟨hchain, suffix, hsuf⟩ := buildTransitions_spec _ _ _ _ h
      (List.chain'_singleton _)
    exact ⟨hchain, z0, rest0, suffix, rfl, by simpa using hsuf⟩

/-- The type-record reading loop returns exactly as many raw records
as requested. -/
theorem readTtinfos0_length :
    ∀ (n : Nat) (s : List Nat) (xs : List (Int × Nat × Nat)) (s' : List Nat),
    readTtinfos0 n s = .ok (xs, s') → xs.length = n := by
  intro n
  induction n with
  | zero =>
    intro s xs s' h
    simp only [readTtinfos0, Except.ok.injEq, Prod.mk.injEq] at h
    rw [← h.1]
    rfl
  | succ n ih =>
    intro s xs s' h
    simp only [readTtinfos0] at h
    rw [tryE_ok_iff] at h
    obtain ⟨⟨gmtoff, s1⟩, _, h⟩ := h
    rw [tryE_ok_iff] at h
    obtain ⟨⟨isdst, s2⟩, _, h⟩ := h
    rw [tryE_ok_iff] at h
    obtain ⟨⟨abbrind, s3⟩, _, h⟩ := h
    rw [tryE_ok_iff] at h
    obtain ⟨⟨ys, s4⟩, hys, h⟩ := h
    simp only [Except.ok.injEq, Prod.mk.injEq] at h
    rw [← h.1]
    simp [ih _ _ _ hys]

/-- Inversion of a successful `readBody`: the parsed structure's three
components are outputs of the corresponding phases — the type table is
a successful resolution of a nonempty raw record list against the
(valid-UTF-8) pool, the transition table a successful assembly over it,
the leap table a successful run of the leap loop from the empty
accumulator, and the future rules a successful `readTzRules` at the
file's version. -/
theorem readBody_ok_inv (w ver : Nat) (s : List Nat) (tf : TzFile) (rest : List Nat)
    (h : readBody w ver s = .ok (tf, rest)) :
    ∃ (pool : List Nat) (infos0 : List (Int × Nat × Nat)) (ttinfos : List Timezone)
      (pairs : List (Int × Nat)) (n : Nat) (s1 s2 s3 s4 : List Nat),
      infos0 ≠ [] ∧
      utf8Valid pool = true ∧
      resolveTtinfos pool infos0 = .ok ttinfos ∧
      buildTransitions0 ttinfos pairs = .ok tf.transitions ∧
      readLeaps w n [] s1 = .ok (tf.leap_transitions, s2) ∧
      readTzRules ver s3 = .ok (tf.future_rules, s4) := by
  unfold readBody at h
  rw [tryE_ok_iff] at h
  obtain ⟨⟨ttisgmtcnt, s⟩, _, h⟩ := h
  rw [tryE_ok_iff] at h
  obtain ⟨⟨ttisstdcnt, s⟩, _, h⟩ := h
  rw [tryE_ok_iff] at h
  obtain ⟨⟨leapcnt, s⟩, _, h⟩ := h
  rw [tryE_ok_iff] at h
  obtain ⟨⟨timecnt, s⟩, _, h⟩ := h
  rw [tryE_ok_iff] at h
  obtain ⟨⟨typecnt, s⟩, _, h⟩ := h
  rw [tryE_ok_iff] at h
  obtain ⟨⟨charcnt, s⟩, _, h⟩ := h
  dsimp only at h
  split at h
  · exact absurd h (by simp [invalid_input])
  · rename_i hsane
    rw [tryE_ok_iff] at h
    obtain ⟨⟨ttpoints, s⟩, _, h⟩ := h
    rw [tryE_ok_iff] at h
    obtain ⟨⟨ttindices, s⟩, _, h⟩ := h
    rw [tryE_ok_iff] at h
    obtain ⟨⟨ttinfos0, s⟩, hinfos0, h⟩ := h
    rw [tryE_ok_iff] at h
    obtain ⟨⟨poolBytes, spool⟩, _, h⟩ := h
    dsimp only at h
    split at h
    · exact absurd h (by simp [invalid_input])
    · rename_i hpool
      rw [tryE_ok_iff] at h
      obtain ⟨⟨leaps, sleap⟩, hleaps, h⟩ := h
      rw [tryE_ok_iff] at h
      obtain ⟨⟨_, sstd⟩, _, h⟩ := h
      rw [tryE_ok_iff] at h
      obtain ⟨⟨_, sgmt⟩, _, h⟩ := h
      rw [tryE_ok_iff] at h
      obtain ⟨⟨tzrules, srules⟩, hrules, h⟩ := h
      rw [tryE_ok_iff] at h
      obtain ⟨ttinfos, hresolve, h⟩ := h
      rw [tryE_ok_iff] at h
      obtain ⟨transitions, hbuild, h⟩ := h
      simp only [Except.ok.injEq, Prod.mk.injEq] at h
      have hne : ttinfos0 ≠ [] := by
        intro hnil
        have hlen := readTtinfos0_length _ _ _ _ hinfos0
        rw [hnil] at hlen
        simp only [List.length_nil] at hlen
        push_neg at hsane
        exact hsane.1 hlen.symm
      obtain ⟨htf, -⟩ := h
      refine ⟨poolBytes, ttinfos0, ttinfos, ttpoints.zip ttindices, leapcnt,
        spool, sleap, sgmt, srules, hne, not_not.mp hpool, hresolve, ?_, ?_, ?_⟩
      · rw [← htf]
        exact hbuild
      · rw [← htf]
        exact hleaps
      · rw [← htf]
        exact hrules

/-- Inversion of a successful `TzFile.read` into header and body. -/
theorem read_ok_inv (s : List Nat) (tf : TzFile) (rest : List Nat)
    (h : TzFile.read s = .ok (tf, rest)) :
    ∃ w ver s0, parseHeader s = .ok ((w, ver), s0) ∧
      readBody w ver s0 = .ok (tf, rest) := by
  unfold TzFile.read at h
  rw [tryE_ok_iff] at h
  obtain ⟨⟨⟨w, ver⟩, s0⟩, hph, h⟩ := h
  exact ⟨w, ver, s0, hph, h⟩

/-- Strictly increasing instants transfer from `Chain'` to any two
positions. -/
theorem chain'_getD_lt {α : Type} [Inhabited α] (l : List (Int × α))
    (hch : List.Chain' (fun a b => a.1 < b.1) l) :
    ∀ i j, i < j → j < l.length →
      (l.getD i default).1 < (l.getD j default).1 := by
  haveI : IsTrans (Int × α) (fun a b : Int × α => a.1 < b.1) :=
    ⟨fun a b c hab hbc => lt_trans hab hbc⟩
  intro i j hij hj
  have hp := List.chain'_iff_pairwise.mp hch
  rw [List.getD_eq_getElem _ _ (by omega), List.getD_eq_getElem _ _ hj]
  exact List.pairwise_iff_getElem.mp hp i j (by omega) hj hij

/-- For a table with strictly increasing instants, the `Less` region of
the floor-lookup comparator is downward closed. -/
theorem cmp_mono_of_chain' {α : Type} [Inhabited α] (l : List (Int × α)) (t : Int)
    (hch : List.Chain' (fun a b => a.1 < b.1) l) :
    ∀ i j, i ≤ j → j < l.length →
      compare (l.getD j default).1 t = Ordering.lt →
      compare (l.getD i default).1 t = Ordering.lt := by
  intro i j hij hj hcj
  rw [compare_lt_iff_lt] at hcj
  rw [compare_lt_iff_lt]
  rcases Nat.eq_or_lt_of_le hij with heq | hlt
  · rw [heq]; exact hcj
  · exact lt_trans (chain'_getD_lt l hch i j hlt hj) hcj

/-- C1: for every sequence sorted consistently with the comparator
(the `Less` region is downward closed, which every consistently sorted
sequence satisfies) and every target, `bsearch_no_less` returns the
lowest index whose element compares not-less-than the target — every
earlier element compares `Less`, the element at the result (if any)
does not — or the sequence length if no element qualifies; and the
result equals the first index found by a linear scan for a key ≥
target. -/
theorem bsearch_no_less_matches_linear_scan {T : Type} [Inhabited T]
    (v : List T) (f : T → Ordering)
    (hsorted : v.Pairwise (fun a b => f b = Ordering.lt → f a = Ordering.lt)) :
    bsearch_no_less v f = v.findIdx (fun x => !(f x == Ordering.lt)) ∧
    bsearch_no_less v f ≤ v.length ∧
    (∀ i, i < bsearch_no_less v f → f (v.getD i default) = Ordering.lt) ∧
    (bsearch_no_less v f < v.length →
      f (v.getD (bsearch_no_less v f) default) ≠ Ordering.lt) := by
  have hmono := pairwise_to_mono default f v hsorted
  obtain ⟨hle, hlow, hhigh⟩ := bsearch_no_less_spec v f hmono
  refine ⟨?_, hle, hlow, fun h => hhigh _ (Nat.le_refl _) h⟩
  refine (findIdx_eq_char default _ v _ hle ?_ ?_).symm
  · intro i hi
    show (!(f (v.getD i default) == Ordering.lt)) = false
    rw [hlow i hi]
    decide
  · intro h
    have hne := hhigh _ (Nat.le_refl _) h
    show (!(f (v.getD (bsearch_no_less v f) default) == Ordering.lt)) = true
    cases hcv : f (v.getD (bsearch_no_less v f) default) <;> simp_all <;> decide

/-- Witness for `bsearch_no_less_matches_linear_scan` at the sorted
sequence `[1, 3, 5]` and target `4`. -/
theorem bsearch_no_less_matches_linear_scan_witness :
    bsearch_no_less [(1 : Int), 3, 5] (fun x => compare x 4) =
      List.findIdx (fun x => !(compare x 4 == Ordering.lt)) [(1 : Int), 3, 5] ∧
    bsearch_no_less [(1 : Int), 3, 5] (fun x => compare x 4) = 2 :=
  ⟨(bsearch_no_less_matches_linear_scan [(1 : Int), 3, 5]
      (fun x => compare x 4) (by decide)).1, by decide⟩

/-- C3: for every successfully parsed file, the first transition entry
has the minimal representable instant (`i64::MIN`) as its instant and
carries the zone record resolved from type record 0: the parse resolved
some raw record list `rec0 :: recs` against the pool into the type
table `z0 :: zs` — so `z0` is the resolution of the first raw type
record — and the file's transition table is the successful assembly
`buildTransitions0` over that very table, with head `(i64::MIN, z0)`. -/
theorem read_ok_first_transition_sentinel (s : List Nat) (tf : TzFile)
    (rest : List Nat) (h : TzFile.read s = .ok (tf, rest)) :
    ∃ (pool : List Nat) (rec0 : Int × Nat × Nat) (recs : List (Int × Nat × Nat))
      (z0 : Timezone) (zs : List Timezone) (pairs : List (Int × Nat))
      (suffix : List (Int × Timezone)),
      resolveTtinfo pool rec0 = .ok z0 ∧
      resolveTtinfos pool (rec0 :: recs) = .ok (z0 :: zs) ∧
      buildTransitions0 (z0 :: zs) pairs = .ok tf.transitions ∧
      tf.transitions = (intMin, z0) :: suffix := by
  obtain ⟨w, ver, s0, hph, hbody⟩ := read_ok_inv s tf rest h
  obtain ⟨pool, infos0, ttinfos, pairs, n, s1, s2, s3, s4, hne, hpool, hres,
    hbuild, -, -⟩ := readBody_ok_inv _ _ _ _ _ hbody
  obtain ⟨hchain, z0, rest0, suffix, hti, hres2⟩ := buildTransitions0_spec _ _ _ hbuild
  cases infos0 with
  | nil => exact absurd rfl hne
  | cons r0 rs =>
    have hres' := hres
    simp only [resolveTtinfos] at hres'
    rw [tryE_ok_iff] at hres'
    obtain ⟨z, hz, hres'⟩ := hres'
    rw [tryE_ok_iff] at hres'
    obtain ⟨zs, hzs, hres'⟩ := hres'
    simp only [Except.ok.injEq] at hres'
    rw [hti] at hres'
    injection hres' with hz0 hzs0
    refine ⟨pool, r0, rs, z0, rest0, pairs, suffix, ?_, ?_, ?_, hres2⟩
    · rw [← hz0]
      exact hz
    · rw [← hti]
      exact hres
    · rw [← hti]
      exact hbuild

/-- Witness for `read_ok_first_transition_sentinel` at the round-trip
demo file. -/
theorem read_ok_first_transition_sentinel_witness :
    ∃ (pool : List Nat) (rec0 : Int × Nat × Nat) (recs : List (Int × Nat × Nat))
      (z0 : Timezone) (zs : List Timezone) (pairs : List (Int × Nat))
      (suffix : List (Int × Timezone)),
      resolveTtinfo pool rec0 = .ok z0 ∧
      resolveTtinfos pool (rec0 :: recs) = .ok (z0 :: zs) ∧
      buildTransitions0 (z0 :: zs) pairs = .ok demoTz.transitions ∧
      demoTz.transitions = (intMin, z0) :: suffix :=
  read_ok_first_transition_sentinel demoBytes demoTz [] rfl

/-- C4: for every successfully parsed file the transition instants are
strictly increasing at every adjacent pair (so no duplicate instants),
and likewise the leap-table instants; moreover the concrete file
`c4Bytes`, which carries two transitions at the same instant, is
rejected with the ordering error. -/
theorem read_ok_tables_strictly_increasing (s : List Nat) (tf : TzFile)
    (rest : List Nat) (h : TzFile.read s = .ok (tf, rest)) :
    (∀ i, i + 1 < tf.transitions.length →
      (tf.transitions.getD i default).1 < (tf.transitions.getD (i + 1) default).1) ∧
    (∀ i, i + 1 < tf.leap_transitions.length →
      (tf.leap_transitions.getD i default).1 <
        (tf.leap_transitions.getD (i + 1) default).1) ∧
    TzFile.read c4Bytes = .error (.invalidInput "unsorted tzfile entires") := by
  obtain ⟨w, ver, s0, hph, hbody⟩ := read_ok_inv s tf rest h
  obtain ⟨pool, infos0, ttinfos, pairs, n, s1, s2, s3, s4, hne, hpool, hres,
    hbuild, hleaps, -⟩ := readBody_ok_inv _ _ _ _ _ hbody
  obtain ⟨hchain, -⟩ := buildTransitions0_spec _ _ _ hbuild
  have hleapchain := readLeaps_sorted w n [] s1 tf.leap_transitions s2 hleaps
    List.chain'_nil
  exact ⟨fun i hi => chain'_getD_lt _ hchain i (i + 1) (by omega) hi,
    fun i hi => chain'_getD_lt _ hleapchain i (i + 1) (by omega) hi, rfl⟩

/-- Witness for `read_ok_tables_strictly_increasing` at the round-trip
demo file: the two transition instants are in strict order. -/
theorem read_ok_tables_strictly_increasing_witness :
    (demoTz.transitions.getD 0 default).1 < (demoTz.transitions.getD 1 default).1 :=
  (read_ok_tables_strictly_increasing demoBytes demoTz [] rfl).1 0 (by decide)

/-- The spec's floor lookup, written from its words: the latest
transition whose instant is at or before the queried instant. -/
def lastAtOrBefore (l : List (Int × Timezone)) (t : Int) : Option (Int × Timezone) :=
  (l.filter (fun p => decide (p.1 ≤ t))).getLast?

/-- C2 counterexample: on the successfully parsed two-zone file
`c2Bytes`, at the exact transition instant 100 the latest transition at
or before 100 is `(100, zoneB)`, yet `timezone_at 100` returns `zoneA`
(the record of the latest transition strictly before 100); moreover at
`t = i64::MIN` the lower-bound index is 0 and the `assert!(next > 0)`
fails (`none`), so the index is not always ≥ 1. -/
theorem timezone_at_not_at_or_before :
    TzFile.read c2Bytes = .ok (c2Tz, []) ∧
    lastAtOrBefore c2Tz.transitions 100 = some (100, zoneB) ∧
    c2Tz.timezone_at 100 = some zoneA ∧
    zoneA ≠ zoneB ∧
    c2Tz.timezone_at intMin = none := by
  refine ⟨rfl, rfl, rfl, ?_, rfl⟩
  decide

/-- C2 (amended): for every successfully parsed file and every instant
`t` strictly greater than the minimal representable instant, the
lower-bound index `i` over the transition instants is ≥ 1 (so the
assertion holds) and `timezone_at t` returns the record stored at index
`i − 1`, which is the record of the latest transition whose instant is
strictly before `t`. -/
theorem timezone_at_latest_strictly_before (s : List Nat) (tf : TzFile)
    (rest : List Nat) (t : Int) (h : TzFile.read s = .ok (tf, rest))
    (ht : intMin < t) :
    1 ≤ bsearch_no_less tf.transitions (fun p => compare p.1 t) ∧
    bsearch_no_less tf.transitions (fun p => compare p.1 t) ≤ tf.transitions.length ∧
    tf.timezone_at t = some
      (tf.transitions.getD
        (bsearch_no_less tf.transitions (fun p => compare p.1 t) - 1) default).2 ∧
    (tf.transitions.getD
      (bsearch_no_less tf.transitions (fun p => compare p.1 t) - 1) default).1 < t ∧
    (∀ j, j < tf.transitions.length → (tf.transitions.getD j default).1 < t →
      j ≤ bsearch_no_less tf.transitions (fun p => compare p.1 t) - 1) := by
  obtain ⟨w, ver, s0, hph, hbody⟩ := read_ok_inv s tf rest h
  obtain ⟨pool, infos0, ttinfos, pairs, n, s1, s2, s3, s4, hne, hpool, hres,
    hbuild, -, -⟩ := readBody_ok_inv _ _ _ _ _ hbody
  obtain ⟨hchain, z0, rest0, suffix, hti, hcons⟩ := buildTransitions0_spec _ _ _ hbuild
  have hmono := cmp_mono_of_chain' tf.transitions t hchain
  obtain ⟨hle, hlow, hhigh⟩ :=
    bsearch_no_less_spec tf.transitions (fun p => compare p.1 t) hmono
  have hlen0 : 0 < tf.transitions.length := by rw [hcons]; simp
  have h0 : compare (tf.transitions.getD 0 default).1 t = Ordering.lt := by
    rw [hcons, List.getD_cons_zero]
    exact compare_lt_iff_lt.mpr ht
  have h1 : 1 ≤ bsearch_no_less tf.transitions (fun p => compare p.1 t) := by
    by_contra hcon
    push_neg at hcon
    exact hhigh 0 (by omega) hlen0 h0
  refine ⟨h1, hle, ?_, ?_, ?_⟩
  · simp only [TzFile.timezone_at]
    rw [if_pos (by omega : bsearch_no_less tf.transitions (fun p => compare p.1 t) > 0)]
  · exact compare_lt_iff_lt.mp (hlow _ (by omega))
  · intro j hj hjt
    by_contra hcon
    push_neg at hcon
    exact hhigh j (by omega) hj (compare_lt_iff_lt.mpr hjt)

/-- Witness for `timezone_at_latest_strictly_before` on the parsed
two-zone file at `t = 100`. -/
theorem timezone_at_latest_strictly_before_witness :
    c2Tz.timezone_at 100 = some
      (c2Tz.transitions.getD
        (bsearch_no_less c2Tz.transitions (fun p => compare p.1 100) - 1) default).2 :=
  (timezone_at_latest_strictly_before c2Bytes c2Tz [] 100 rfl (by decide)).2.2.1

/-- C5: for every successfully parsed file and every instant `t`,
`total_leap_seconds_at t` is 0 when the lower-bound index over the
leap-table instants is 0 — in particular whenever `t` is before the
first leap entry's instant, and always when the leap table is empty —
and otherwise equals the cumulative total stored at index `i − 1`. -/
theorem total_leap_seconds_at_spec (s : List Nat) (tf : TzFile) (rest : List Nat)
    (t : Int) (h : TzFile.read s = .ok (tf, rest)) :
    (bsearch_no_less tf.leap_transitions (fun p => compare p.1 t) = 0 →
      tf.total_leap_seconds_at t = 0) ∧
    (∀ p0, tf.leap_transitions.head? = some p0 → t < p0.1 →
      tf.total_leap_seconds_at t = 0) ∧
    (tf.leap_transitions = [] → tf.total_leap_seconds_at t = 0) ∧
    (0 < bsearch_no_less tf.leap_transitions (fun p => compare p.1 t) →
      tf.total_leap_seconds_at t =
        (tf.leap_transitions.getD
          (bsearch_no_less tf.leap_transitions (fun p => compare p.1 t) - 1) default).2) := by
  obtain ⟨w, ver, s0, hph, hbody⟩ := read_ok_inv s tf rest h
  obtain ⟨pool, infos0, ttinfos, pairs, n, s1, s2, s3, s4, hne, hpool, hres,
    hbuild, hleaps, -⟩ := readBody_ok_inv _ _ _ _ _ hbody
  have hleapchain := readLeaps_sorted w n [] s1 tf.leap_transitions s2 hleaps
    List.chain'_nil
  have hzero : bsearch_no_less tf.leap_transitions (fun p => compare p.1 t) = 0 →
      tf.total_leap_seconds_at t = 0 := by
    intro h0
    simp only [TzFile.total_leap_seconds_at]
    rw [h0]
    simp
  refine ⟨hzero, ?_, ?_, ?_⟩
  · intro p0 hhead hlt
    apply hzero
    obtain ⟨hle, hlow, hhigh⟩ := bsearch_no_less_spec tf.leap_transitions
      (fun p => compare p.1 t) (cmp_mono_of_chain' tf.leap_transitions t hleapchain)
    by_contra hcon
    have h0lt : 0 < bsearch_no_less tf.leap_transitions (fun p => compare p.1 t) := by
      omega
    have := hlow 0 h0lt
    cases htl : tf.leap_transitions with
    | nil => rw [htl] at hhead; exact absurd hhead (by simp)
    | cons q qs =>
      rw [htl] at hhead this
      simp only [List.head?_cons, Option.some.injEq] at hhead
      rw [List.getD_cons_zero] at this
      rw [hhead] at this
      rw [compare_lt_iff_lt] at this
      omega
  · intro hnil
    simp only [TzFile.total_leap_seconds_at, hnil, bsearch_no_less, bsearchAux,
      List.length_nil]
    simp
  · intro hpos
    simp only [TzFile.total_leap_seconds_at]
    rw [if_pos (by omega : bsearch_no_less tf.leap_transitions (fun p => compare p.1 t) > 0)]

/-- Witness for `total_leap_seconds_at_spec` at the round-trip demo
file (empty leap table, arbitrary instant). -/
theorem total_leap_seconds_at_spec_witness :
    demoTz.total_leap_seconds_at 12345 = 0 :=
  (total_leap_seconds_at_spec demoBytes demoTz [] 12345 rfl).2.2.1 rfl

/-- C6: `TzFile::read` is not total — on `c6Bytes`, whose single
transition carries type index 1 while the type-record table has length
1, the unchecked `ttinfos[ttindex]` lookup is out of bounds and the
parse panics instead of returning `Ok` or a validation error. -/
theorem read_panics_on_out_of_range_type_index :
    TzFile.read c6Bytes = .error .panicked := rfl

/-- C7 counterexample: `c7Bytes` has the valid-UTF-8 pool
`[0xC3, 0xA9, 0x00]` and a type record with abbreviation index 1 — the
index is within the pool and a null terminator follows it — yet parsing
neither fails with the abbreviation-index error nor produces the
substring: the mid-character string slice panics. -/
theorem read_panics_on_mid_character_abbrev_index :
    TzFile.read c7Bytes = .error .panicked ∧
    resolveAbbrev [195, 169, 0] 1 = .error .panicked ∧
    1 < ([195, 169, 0] : List Nat).length ∧
    (0 : Nat) ∈ ([195, 169, 0] : List Nat).drop 1 ∧
    utf8Valid [195, 169, 0] = true := by
  exact ⟨rfl, rfl, by decide, by decide, rfl⟩

/-- The byte-0 scan on a null-free prefix followed by a null finds
exactly the prefix length. -/
theorem findIdx_zero_append (pre post : List Nat) (hpre : ∀ b ∈ pre, b ≠ 0) :
    (pre ++ 0 :: post).findIdx? (fun b => b == 0) = some pre.length := by
  induction pre with
  | nil => simp [List.findIdx?_cons]
  | cons a tl ih =>
    have ha : (a == 0) = false := by
      simpa using hpre a (by simp)
    have htl : ∀ b ∈ tl, b ≠ 0 := fun b hb => hpre b (by simp [hb])
    simp [List.findIdx?_cons, ha, ih htl]

/-- C7 (amended): abbreviation resolution of a type record — an index
not within the pool fails with the abbreviation-index error; an in-pool
index that is not a character boundary (its byte is a UTF-8
continuation byte) aborts the parse with a panic rather than the
validation error; on a character boundary, a missing null terminator
fails with the abbreviation-index error, and otherwise the name is
exactly the pool bytes from the offset up to (excluding) the first null
terminator. -/
theorem resolveAbbrev_spec (pool : List Nat) (ab : Nat) :
    (¬ ab < pool.length →
      resolveAbbrev pool ab = .error (.invalidInput "invalid tzfile abbreviation index")) ∧
    (ab < pool.length → isCont (pool.getD ab 0) = true →
      resolveAbbrev pool ab = .error .panicked) ∧
    (ab < pool.length → isCont (pool.getD ab 0) = false →
      (∀ b ∈ pool.drop ab, b ≠ 0) →
      resolveAbbrev pool ab = .error (.invalidInput "invalid tzfile abbreviation index")) ∧
    (∀ pre post, ab < pool.length → isCont (pool.getD ab 0) = false →
      pool.drop ab = pre ++ 0 :: post → (∀ b ∈ pre, b ≠ 0) →
      resolveAbbrev pool ab = .ok pre) := by
  refine ⟨?_, ?_, ?_, ?_⟩
  · intro hout
    unfold resolveAbbrev
    rw [if_neg hout]
    rfl
  · intro hin hcont
    unfold resolveAbbrev
    rw [if_pos hin, if_pos hcont]
  · intro hin hcont hnull
    unfold resolveAbbrev
    rw [if_pos hin, if_neg (by rw [hcont]; decide)]
    have hnone : (pool.drop ab).findIdx? (fun b => b == 0) = none := by
      rw [List.findIdx?_eq_none_iff]
      intro b hb
      simpa using hnull b hb
    rw [hnone]
    rfl
  · intro pre post hin hcont hsplit hpre
    unfold resolveAbbrev
    rw [if_pos hin, if_neg (by rw [hcont]; decide), hsplit,
      findIdx_zero_append pre post hpre]
    simp [List.take_left]

/-- Witness for `resolveAbbrev_spec`: on the pool `"CET\0"` with index
0, the name is the bytes of `"CET"`. -/
theorem resolveAbbrev_spec_witness :
    resolveAbbrev [67, 69, 84, 0] 0 = .ok [67, 69, 84] :=
  (resolveAbbrev_spec [67, 69, 84, 0] 0).2.2.2 [67, 69, 84] []
    (by decide) (by decide) rfl (by decide)

/-- C8 counterexample: `c8Bytes` has a type record whose DST flag byte
is 2 (the raw type records parse to `[(3600, 2, 0)]`) and an unsorted
leap-second table; parsing fails with the ordering error, not the
dst-flag validity error — the dst check does not precede the
leap-second section. -/
theorem dst_flag_error_not_before_leap_section :
    TzFile.read c8Bytes = .error (.invalidInput "unsorted tzfile entires") ∧
    readTtinfos0 1 (be32 3600 ++ [2, 0] ++ [67, 69, 84, 0] ++
        be32 100 ++ be32 1 ++ be32 100 ++ be32 2) =
      .ok ([(3600, 2, 0)],
        [67, 69, 84, 0] ++ be32 100 ++ be32 1 ++ be32 100 ++ be32 2) ∧
    RErr.invalidInput "unsorted tzfile entires" ≠
      RErr.invalidInput "invalid tzfile dst flag" := by
  exact ⟨rfl, rfl, by decide⟩

/-- C8 (amended): if some raw type record's DST flag byte is neither 0
nor 1 and every earlier record resolves successfully, the resolution
loop fails with the dst-flag validity error; since this loop runs after
the leap-second, indicator and future-rule sections, violations in
those sections take precedence. -/
theorem resolveTtinfos_dst_flag_error (pool : List Nat)
    (pre : List (Int × Nat × Nat)) (g : Int) (fl ab : Nat)
    (post : List (Int × Nat × Nat)) (zs : List Timezone)
    (hpre : resolveTtinfos pool pre = .ok zs)
    (h0 : fl ≠ 0) (h1 : fl ≠ 1) :
    resolveTtinfos pool (pre ++ (g, fl, ab) :: post) =
      .error (.invalidInput "invalid tzfile dst flag") := by
  induction pre generalizing zs with
  | nil =>
    obtain ⟨m, rfl⟩ : ∃ m, fl = m + 2 := ⟨fl - 2, by omega⟩
    simp [resolveTtinfos, resolveTtinfo, tryE, invalid_input]
  | cons r tl ih =>
    simp only [resolveTtinfos] at hpre
    rw [tryE_ok_iff] at hpre
    obtain ⟨z, hz, hpre⟩ := hpre
    rw [tryE_ok_iff] at hpre
    obtain ⟨zs', hzs', -⟩ := hpre
    rw [List.cons_append]
    simp only [resolveTtinfos]
    rw [hz]
    simp only [tryE]
    rw [ih zs' hzs']

/-- Witness for `resolveTtinfos_dst_flag_error`: a single record with
flag byte 2 resolves to the dst-flag error. -/
theorem resolveTtinfos_dst_flag_error_witness :
    resolveTtinfos [67, 69, 84, 0] [((3600 : Int), 2, 0)] =
      .error (.invalidInput "invalid tzfile dst flag") :=
  resolveTtinfos_dst_flag_error [67, 69, 84, 0] [] 3600 2 0 [] [] rfl
    (by decide) (by decide)

/-- A successful one-byte read means the stream began with that byte. -/
theorem read_u8_ok_inv (s : List Nat) (b : Nat) (s' : List Nat)
    (h : read_u8 s = .ok (b, s')) : s = b :: s' := by
  cases s with
  | nil => exact absurd h (by simp [read_u8])
  | cons c t =>
    simp only [read_u8, Except.ok.injEq, Prod.mk.injEq] at h
    rw [h.1, h.2]

/-- A successful four-byte read leaves the drop-4 suffix. -/
theorem read_be_u32_ok_inv (s : List Nat) (x : Nat) (s' : List Nat)
    (h : read_be_u32 s = .ok (x, s')) : s' = s.drop 4 := by
  unfold read_be_u32 at h
  cases hre : read_exact 4 s with
  | error e =>
    rw [hre] at h
    exact absurd h (by simp)
  | ok p =>
    rw [hre] at h
    obtain ⟨bs, s1⟩ := p
    simp only [Except.ok.injEq, Prod.mk.injEq] at h
    unfold read_exact at hre
    split at hre
    · simp only [Except.ok.injEq, Prod.mk.injEq] at hre
      rw [← h.2, ← hre.2]
    · exact absurd hre (by simp)

/-- Dropping to a cons pins down the byte at that offset. -/
theorem drop_cons_getD (l : List Nat) :
    ∀ (n b : Nat) (t : List Nat), l.drop n = b :: t → l.getD n 0 = b := by
  induction l with
  | nil =>
    intro n b t h
    rw [List.drop_nil] at h
    exact absurd h (by simp)
  | cons a tl ih =>
    intro n b t h
    cases n with
    | zero =>
      simp only [List.drop_zero] at h
      rw [h]
      rfl
    | succ n =>
      rw [List.drop_succ_cons] at h
      rw [List.getD_cons_succ]
      exact ih n b t h

/-- The version returned by `parseHeader` is the input's fifth byte
(offset 4, right after the magic). -/
theorem parseHeader_version (s : List Nat) (w ver : Nat) (s0 : List Nat)
    (h : parseHeader s = .ok ((w, ver), s0)) : s.getD 4 0 = ver := by
  unfold parseHeader at h
  rw [tryE_ok_iff] at h
  obtain ⟨⟨magic, s1⟩, hmagic, h⟩ := h
  dsimp only at h
  split at h
  · exact absurd h (by simp [invalid_input])
  · rw [tryE_ok_iff] at h
    obtain ⟨⟨version, s2⟩, hver, h⟩ := h
    rw [tryE_ok_iff] at h
    obtain ⟨tw, htw, h⟩ := h
    rw [tryE_ok_iff] at h
    obtain ⟨⟨b15, s3⟩, hb15, h⟩ := h
    rw [tryE_ok_iff] at h
    obtain ⟨s4, hs4, h⟩ := h
    simp only [Except.ok.injEq, Prod.mk.injEq] at h
    have hs1 : s1 = s.drop 4 := read_be_u32_ok_inv s magic s1 hmagic
    have hcons : s.drop 4 = version :: s2 := by
      rw [← hs1]
      exact read_u8_ok_inv s1 version s2 hver
    have := drop_cons_getD s 4 version s2 hcons
    rw [this, ← h.1.2]

/-- The rule-byte loop on a newline-free prefix followed by a newline
accumulates exactly the prefix. -/
theorem readRuleBytes_append (mid rest : List Nat) (hmid : ¬ (10 : Nat) ∈ mid) :
    readRuleBytes (mid ++ 10 :: rest) = .ok (mid, rest) := by
  induction mid with
  | nil => simp [readRuleBytes]
  | cons b tl ih =>
    have hb : b ≠ 10 := by
      intro hb
      exact hmid (by simp [hb])
    have htl : ¬ (10 : Nat) ∈ tl := fun hh => hmid (by simp [hh])
    simp [readRuleBytes, hb, ih htl, tryE]

/-- C9: a successfully parsed legacy-format file (version byte 0) has
no future rules; for the extended formats (`version ≥ b'2'`), a
non-newline byte where the rule section starts fails with the
missing-rule-string error, and a newline followed by accumulated bytes
up to the next newline yields: absent rules on an empty accumulation,
the accumulated bytes verbatim when they are valid UTF-8, and the
rule-string-validity error otherwise. -/
theorem future_rules_spec :
    (∀ (s : List Nat) (tf : TzFile) (rest : List Nat),
      TzFile.read s = .ok (tf, rest) → s.getD 4 0 = 0 → tf.future_rules = none) ∧
    (∀ (ver c : Nat) (s : List Nat), 50 ≤ ver → c ≠ 10 →
      readTzRules ver (c :: s) = .error (.invalidInput "missing tzfile TZ string")) ∧
    (∀ (ver : Nat) (mid rest : List Nat), 50 ≤ ver → ¬ (10 : Nat) ∈ mid →
      readTzRules ver (10 :: (mid ++ 10 :: rest)) =
        if mid = [] then .ok (none, rest)
        else if utf8Valid mid then .ok (some mid, rest)
        else .error (.invalidInput "invalid tzfile TZ string")) := by
  refine ⟨?_, ?_, ?_⟩
  · intro s tf rest h hv
    obtain ⟨w, ver, s0, hph, hbody⟩ := read_ok_inv s tf rest h
    have hver : ver = 0 := by
      have := parseHeader_version s w ver s0 hph
      omega
    obtain ⟨_, _, _, _, _, _, _, _, _, _, _, _, _, _, hrules⟩ :=
      readBody_ok_inv _ _ _ _ _ hbody
    rw [hver] at hrules
    unfold readTzRules at hrules
    rw [if_neg (by omega)] at hrules
    simp only [Except.ok.injEq, Prod.mk.injEq] at hrules
    exact hrules.1.symm
  · intro ver c s hver hc
    unfold readTzRules
    rw [if_pos hver]
    simp only [read_u8, tryE]
    rw [if_pos hc]
    rfl
  · intro ver mid rest hver hmid
    unfold readTzRules
    rw [if_pos hver]
    simp only [read_u8, tryE]
    rw [if_neg (by simp), readRuleBytes_append mid rest hmid]
    rfl

/-- Witness for `future_rules_spec`: the legacy demo file has absent
rules; `readTzRules` at version `'2'` rejects a missing newline, and
maps an empty, a valid and an invalid accumulation as specified. -/
theorem future_rules_spec_witness :
    demoTz.future_rules = none ∧
    readTzRules 50 [65] = .error (.invalidInput "missing tzfile TZ string") ∧
    readTzRules 50 [10, 10, 99] = .ok (none, [99]) ∧
    readTzRules 50 [10, 65, 66, 10] = .ok (some [65, 66], []) ∧
    readTzRules 50 [10, 255, 10] = .error (.invalidInput "invalid tzfile TZ string") :=
  ⟨future_rules_spec.1 demoBytes demoTz [] rfl rfl,
   future_rules_spec.2.1 50 65 [] (by decide) (by decide),
   future_rules_spec.2.2 50 [] [99] (by decide) (by decide),
   future_rules_spec.2.2 50 [65, 66] [] (by decide) (by decide),
   future_rules_spec.2.2 50 [255] [] (by decide) (by decide)⟩

/-- C10: the synthetically constructed valid legacy file round-trips —
parsing succeeds, the transition table is the sentinel plus the single
transition at 0 (both bound to `{3600, false, "CET"}`), `timezone_at`
at −100 and 100 both return that record, the leap correction is 0 at
every instant, and the future rules are absent. -/
theorem read_round_trip_demo :
    TzFile.read demoBytes = .ok (demoTz, []) ∧
    demoTz.transitions = [(intMin, cet), (0, cet)] ∧
    demoTz.timezone_at (-100) = some cet ∧
    demoTz.timezone_at 100 = some cet ∧
    (∀ t : Int, demoTz.total_leap_seconds_at t = 0) ∧
    demoTz.future_rules = none := by
  refine ⟨rfl, rfl, rfl, rfl, fun t => rfl, rfl⟩

end TzSpec
